import Mathlib

/-!
Shallow embedding of the yet-another-md5 streaming MD5 engine.

Source modules embedded:
  * src/conversions.rs        — byte/word codecs (extract_u8, u64_to_u8, u8_to_u32, u32_to_u8)
  * src/chunk.rs              — the 64-byte Chunk value type and its TryFrom<&[u8]>
  * src/hash_compute_state.rs — the four-word compression state and the 64-step loop
  * src/chunk_processor.rs    — the streaming segmenter (update / finalize / write_length)
  * src/hash.rs               — the 16-byte digest and its lowercase-hex Display

Machine integers are embedded as Nat with explicit reduction modulo 2^32 (u32)
and 2^64 (u64) at each wrapping operation.  Byte sequences are List Nat.
-/

namespace YaMd5

/-- The u32 modulus 2^32. -/
def M32 : Nat := 2 ^ 32

/-- The u64 modulus 2^64. -/
def M64 : Nat := 2 ^ 64

/-! ## conversions.rs -/

/-- Source `extract_u8(index, value)`: `(0xff << (index * 8) & value) >> (index * 8)`.
The `u8::try_from` in the source cannot fail because the value is masked to 8 bits. -/
def extract_u8 (index : Nat) (value : Nat) : Nat :=
  ((0xff <<< (index * 8)) &&& value) >>> (index * 8)

/-- Source `u64_to_u8(source, buffer)`: fills an 8-byte buffer with `extract_u8 i source`
for `i = 0..8` (little-endian unpack of a u64). -/
def u64_to_u8 (source : Nat) : List Nat :=
  (List.range 8).map (fun index => extract_u8 index source)

/-- Source `u8_to_u32(source)`: `result |= item << (index * 8)` over
`source.iter().enumerate().take(4)`. -/
def u8_to_u32 (source : List Nat) : Nat :=
  (source.enum.take 4).foldl (fun result p => result ||| (p.2 <<< (p.1 * 8))) 0

/-- Source `u32_to_u8(source)`: a 4-byte buffer with `extract_u8 i source` for `i = 0..4`. -/
def u32_to_u8 (source : Nat) : List Nat :=
  (List.range 4).map (fun index => extract_u8 index source)

/-! ## chunk.rs -/

/-- Source `CHUNK_SIZE_BYTES = 64` (512 / 8). -/
def CHUNK_SIZE_BYTES : Nat := 64

/-- The error enum `ChunkTryFromSliceError`. -/
inductive ChunkTryFromSliceError where
  | InvalidSize (len : Nat)
  | TryFromSliceError (msg : String)
deriving Repr, DecidableEq

/-- Source `impl TryFrom<&[u8]> for Chunk`: fails with `InvalidSize(len)` when the slice
length is not 64; the inner `<RawChunk>::try_from` on a length-64 slice cannot
fail, so the `TryFromSliceError` branch is unreachable and we return the bytes. -/
def Chunk.tryFrom (value : List Nat) : Except ChunkTryFromSliceError (List Nat) :=
  if value.length ≠ CHUNK_SIZE_BYTES then
    .error (.InvalidSize value.length)
  else
    .ok value

/-! ## hash_compute_state.rs -/

/-- Source `SINE_TABLE`: precomputed `T[i] = floor(2^32 * abs(sin(i)))` for `i = 1..64`. -/
def SINE_TABLE : List Nat := [
  0xd76aa478, 0xe8c7b756, 0x242070db, 0xc1bdceee, 0xf57c0faf, 0x4787c62a, 0xa8304613, 0xfd469501,
  0x698098d8, 0x8b44f7af, 0xffff5bb1, 0x895cd7be, 0x6b901122, 0xfd987193, 0xa679438e, 0x49b40821,
  0xf61e2562, 0xc040b340, 0x265e5a51, 0xe9b6c7aa, 0xd62f105d, 0x02441453, 0xd8a1e681, 0xe7d3fbc8,
  0x21e1cde6, 0xc33707d6, 0xf4d50d87, 0x455a14ed, 0xa9e3e905, 0xfcefa3f8, 0x676f02d9, 0x8d2a4c8a,
  0xfffa3942, 0x8771f681, 0x6d9d6122, 0xfde5380c, 0xa4beea44, 0x4bdecfa9, 0xf6bb4b60, 0xbebfbc70,
  0x289b7ec6, 0xeaa127fa, 0xd4ef3085, 0x04881d05, 0xd9d4d039, 0xe6db99e5, 0x1fa27cf8, 0xc4ac5665,
  0xf4292244, 0x432aff97, 0xab9423a7, 0xfc93a039, 0x655b59c3, 0x8f0ccc92, 0xffeff47d, 0x85845dd1,
  0x6fa87e4f, 0xfe2ce6e0, 0xa3014314, 0x4e0811a1, 0xf7537e82, 0xbd3af235, 0x2ad7d2bb, 0xeb86d391]

def INITIAL_WORD_A : Nat := 0x67452301
def INITIAL_WORD_B : Nat := 0xefcdab89
def INITIAL_WORD_C : Nat := 0x98badcfe
def INITIAL_WORD_D : Nat := 0x10325476

/-- u32 `wrapping_add`. -/
def wadd (a b : Nat) : Nat := (a + b) % M32

/-- u32 bitwise complement `!x` (on values kept below 2^32). -/
def not32 (x : Nat) : Nat := 0xffffffff ^^^ x

/-- u32 `rotate_left` (shift counts here are always in 1..31). -/
def rotl (x s : Nat) : Nat :=
  (((x % M32) <<< s) ||| ((x % M32) >>> (32 - s))) % M32

def aux_fun_f (x y z : Nat) : Nat := (x &&& y) ||| (not32 x &&& z)

def aux_fun_g (x y z : Nat) : Nat := (x &&& z) ||| (y &&& not32 z)

def aux_fun_h (x y z : Nat) : Nat := x ^^^ y ^^^ z

def aux_fun_i (x y z : Nat) : Nat := y ^^^ (x ||| not32 z)

/-- The `Md5Op!` macro body: the new value for the target word, computed from the
target's previous value `va`, the following three working words `vb vc vd`, the
message word `mk`, the sine constant `ti` and the rotation amount `s`:
`va.wrapping_add(aux(vb, vc, vd)).wrapping_add(mk).wrapping_add(ti).rotate_left(s).wrapping_add(vb)`. -/
def Md5Op (aux : Nat → Nat → Nat → Nat) (va vb vc vd mk ti s : Nat) : Nat :=
  wadd (rotl (wadd (wadd (wadd va (aux vb vc vd)) mk) ti) s) vb

/-- The running compression state: four u32 words. -/
structure HashComputeState where
  a : Nat
  b : Nat
  c : Nat
  d : Nat
deriving Repr, DecidableEq

/-- Source `impl Default for HashComputeState`. -/
def HashComputeState.default : HashComputeState :=
  ⟨INITIAL_WORD_A, INITIAL_WORD_B, INITIAL_WORD_C, INITIAL_WORD_D⟩

/-- Source `Md5Op!(self, block, aux, a, b, c, d, k, s, i)` — target word `a`. -/
def opA (st : HashComputeState) (block : List Nat) (aux : Nat → Nat → Nat → Nat)
    (k s i : Nat) : HashComputeState :=
  { st with a := Md5Op aux st.a st.b st.c st.d (block.getD k 0) (SINE_TABLE.getD i 0) s }

/-- Source `Md5Op!(self, block, aux, d, a, b, c, k, s, i)` — target word `d`. -/
def opD (st : HashComputeState) (block : List Nat) (aux : Nat → Nat → Nat → Nat)
    (k s i : Nat) : HashComputeState :=
  { st with d := Md5Op aux st.d st.a st.b st.c (block.getD k 0) (SINE_TABLE.getD i 0) s }

/-- Source `Md5Op!(self, block, aux, c, d, a, b, k, s, i)` — target word `c`. -/
def opC (st : HashComputeState) (block : List Nat) (aux : Nat → Nat → Nat → Nat)
    (k s i : Nat) : HashComputeState :=
  { st with c := Md5Op aux st.c st.d st.a st.b (block.getD k 0) (SINE_TABLE.getD i 0) s }

/-- Source `Md5Op!(self, block, aux, b, c, d, a, k, s, i)` — target word `b`. -/
def opB (st : HashComputeState) (block : List Nat) (aux : Nat → Nat → Nat → Nat)
    (k s i : Nat) : HashComputeState :=
  { st with b := Md5Op aux st.b st.c st.d st.a (block.getD k 0) (SINE_TABLE.getD i 0) s }

/-- Source `HashComputeState::advance_step`: the source's 64-arm `match step` dispatch,
with the exact (target, k, s, i) table.  The source's `_ => unreachable!()` arm
(process_chunk only passes steps 1..=64) is embedded as the identity. -/
def HashComputeState.advance_step (st : HashComputeState) (block : List Nat)
    (step : Nat) : HashComputeState :=
  -- Round 1
  if step = 1 then opA st block aux_fun_f 0 7 0
  else if step = 2 then opD st block aux_fun_f 1 12 1
  else if step = 3 then opC st block aux_fun_f 2 17 2
  else if step = 4 then opB st block aux_fun_f 3 22 3
  else if step = 5 then opA st block aux_fun_f 4 7 4
  else if step = 6 then opD st block aux_fun_f 5 12 5
  else if step = 7 then opC st block aux_fun_f 6 17 6
  else if step = 8 then opB st block aux_fun_f 7 22 7
  else if step = 9 then opA st block aux_fun_f 8 7 8
  else if step = 10 then opD st block aux_fun_f 9 12 9
  else if step = 11 then opC st block aux_fun_f 10 17 10
  else if step = 12 then opB st block aux_fun_f 11 22 11
  else if step = 13 then opA st block aux_fun_f 12 7 12
  else if step = 14 then opD st block aux_fun_f 13 12 13
  else if step = 15 then opC st block aux_fun_f 14 17 14
  else if step = 16 then opB st block aux_fun_f 15 22 15
  -- Round 2
  else if step = 17 then opA st block aux_fun_g 1 5 16
  else if step = 18 then opD st block aux_fun_g 6 9 17
  else if step = 19 then opC st block aux_fun_g 11 14 18
  else if step = 20 then opB st block aux_fun_g 0 20 19
  else if step = 21 then opA st block aux_fun_g 5 5 20
  else if step = 22 then opD st block aux_fun_g 10 9 21
  else if step = 23 then opC st block aux_fun_g 15 14 22
  else if step = 24 then opB st block aux_fun_g 4 20 23
  else if step = 25 then opA st block aux_fun_g 9 5 24
  else if step = 26 then opD st block aux_fun_g 14 9 25
  else if step = 27 then opC st block aux_fun_g 3 14 26
  else if step = 28 then opB st block aux_fun_g 8 20 27
  else if step = 29 then opA st block aux_fun_g 13 5 28
  else if step = 30 then opD st block aux_fun_g 2 9 29
  else if step = 31 then opC st block aux_fun_g 7 14 30
  else if step = 32 then opB st block aux_fun_g 12 20 31
  -- Round 3
  else if step = 33 then opA st block aux_fun_h 5 4 32
  else if step = 34 then opD st block aux_fun_h 8 11 33
  else if step = 35 then opC st block aux_fun_h 11 16 34
  else if step = 36 then opB st block aux_fun_h 14 23 35
  else if step = 37 then opA st block aux_fun_h 1 4 36
  else if step = 38 then opD st block aux_fun_h 4 11 37
  else if step = 39 then opC st block aux_fun_h 7 16 38
  else if step = 40 then opB st block aux_fun_h 10 23 39
  else if step = 41 then opA st block aux_fun_h 13 4 40
  else if step = 42 then opD st block aux_fun_h 0 11 41
  else if step = 43 then opC st block aux_fun_h 3 16 42
  else if step = 44 then opB st block aux_fun_h 6 23 43
  else if step = 45 then opA st block aux_fun_h 9 4 44
  else if step = 46 then opD st block aux_fun_h 12 11 45
  else if step = 47 then opC st block aux_fun_h 15 16 46
  else if step = 48 then opB st block aux_fun_h 2 23 47
  -- Round 4
  else if step = 49 then opA st block aux_fun_i 0 6 48
  else if step = 50 then opD st block aux_fun_i 7 10 49
  else if step = 51 then opC st block aux_fun_i 14 15 50
  else if step = 52 then opB st block aux_fun_i 5 21 51
  else if step = 53 then opA st block aux_fun_i 12 6 52
  else if step = 54 then opD st block aux_fun_i 3 10 53
  else if step = 55 then opC st block aux_fun_i 10 15 54
  else if step = 56 then opB st block aux_fun_i 1 21 55
  else if step = 57 then opA st block aux_fun_i 8 6 56
  else if step = 58 then opD st block aux_fun_i 15 10 57
  else if step = 59 then opC st block aux_fun_i 6 15 58
  else if step = 60 then opB st block aux_fun_i 13 21 59
  else if step = 61 then opA st block aux_fun_i 4 6 60
  else if step = 62 then opD st block aux_fun_i 11 10 61
  else if step = 63 then opC st block aux_fun_i 2 15 62
  else if step = 64 then opB st block aux_fun_i 9 21 63
  else st

/-- Source `HashComputeState::process_chunk`: decode the 64-byte chunk into 16
little-endian u32 words, run steps 1..=64, then the feed-forward wrapping sums
with the pre-loop state. -/
def HashComputeState.process_chunk (st : HashComputeState) (chunk : List Nat) :
    HashComputeState :=
  let block := (List.range 16).map (fun index => u8_to_u32 ((chunk.drop (index * 4)).take 4))
  let result := (List.range' 1 64).foldl (fun r step => r.advance_step block step) st
  ⟨wadd st.a result.a, wadd st.b result.b, wadd st.c result.c, wadd st.d result.d⟩

/-- Source `HashComputeState::to_raw`: 16 bytes, `u32_to_u8` of a, b, c, d concatenated. -/
def HashComputeState.to_raw (st : HashComputeState) : List Nat :=
  u32_to_u8 st.a ++ u32_to_u8 st.b ++ u32_to_u8 st.c ++ u32_to_u8 st.d

/-! ## hash.rs -/

/-- The 16-byte digest. -/
structure Hash where
  value : List Nat
deriving Repr, DecidableEq

/-- One lowercase hex digit. -/
def hexChar (d : Nat) : Char :=
  if d < 10 then Char.ofNat (48 + d) else Char.ofNat (87 + d)

/-- Source `impl Display for Hash`: `{:02x}` per byte, concatenated, no separators.
Digest bytes are always < 256, for which `{:02x}` is exactly two hex digits. -/
def Hash.toHex (h : Hash) : String :=
  String.mk ((h.value.map (fun b => [hexChar (b / 16 % 16), hexChar (b % 16)])).flatten)

/-! ## chunk_processor.rs -/

/-- Source `INITIAL_BIT = 0x80` (1 in big endian). -/
def INITIAL_BIT : Nat := 0x80

/-- Source `ZERO_PADDING_MAX_SIZE_BYTES = CHUNK_SIZE_BYTES - LENGTH_SIZE_BYTES - INITIAL_BIT_SIZE_BYTES = 55`. -/
def ZERO_PADDING_MAX_SIZE_BYTES : Nat := CHUNK_SIZE_BYTES - 8 - 1

/-- Source `CHUNK_LENGTH = CHUNK_SIZE_BYTES * 8 = 512` bits. -/
def CHUNK_LENGTH : Nat := CHUNK_SIZE_BYTES * 8

/-- The streaming segmenter: buffered tail bytes, the running compression state
and the u64 bit counter. -/
structure ChunkProcessor where
  buffer : List Nat
  state : HashComputeState
  size : Nat
deriving Repr, DecidableEq

/-- Source `impl Default for ChunkProcessor`. -/
def ChunkProcessor.default : ChunkProcessor :=
  ⟨[], HashComputeState.default, 0⟩

/-- Source `write_length(chunk, size)`: writes the 8 bytes of `u64_to_u8(size & u64::MAX)`
into chunk positions `ZERO_PADDING_MAX_SIZE_BYTES + x + 1` for `x = 0..8`
(i.e. positions 56..63). -/
def write_length (chunk : List Nat) (size : Nat) : List Nat :=
  let length := u64_to_u8 (size &&& (M64 - 1))
  (List.range 8).foldl
    (fun c x => c.set (ZERO_PADDING_MAX_SIZE_BYTES + x + 1) (length.getD x 0)) chunk

/-- The complete 64-byte windows yielded by `data.chunks_exact(CHUNK_SIZE_BYTES)`. -/
def chunksExactFull (data : List Nat) : List (List Nat) :=
  (List.range (data.length / CHUNK_SIZE_BYTES)).map
    (fun i => (data.drop (CHUNK_SIZE_BYTES * i)).take CHUNK_SIZE_BYTES)

/-- The remainder of `data.chunks_exact(CHUNK_SIZE_BYTES)` (the trailing part
shorter than 64 bytes). -/
def chunksExactRemainder (data : List Nat) : List Nat :=
  data.drop (CHUNK_SIZE_BYTES * (data.length / CHUNK_SIZE_BYTES))

/-- The tail of `ChunkProcessor::update` (run with an empty buffer after any
buffered tail has been completed): extend the buffer with the remainder of
`data.chunks_exact(64)` and fold every complete 64-byte chunk, bumping the bit
counter by `CHUNK_LENGTH` per chunk.  (In the source the remainder is buffered
before the chunks are folded; the two touch disjoint fields.) -/
def ChunkProcessor.updateTail (cp : ChunkProcessor) (data : List Nat) : ChunkProcessor :=
  { buffer := cp.buffer ++ chunksExactRemainder data,
    state := (chunksExactFull data).foldl HashComputeState.process_chunk cp.state,
    size := (chunksExactFull data).foldl (fun s _ => (s + CHUNK_LENGTH) % M64) cp.size }

/-- Source `ChunkProcessor::update`.  If the buffer is non-empty and the buffered bytes
plus the new data do not reach 64, just extend the buffer and return; otherwise
split the data to complete the buffered chunk, fold it, and continue with the
`chunks_exact` loop on the rest. -/
def ChunkProcessor.update (cp : ChunkProcessor) (data : List Nat) : ChunkProcessor :=
  if cp.buffer.isEmpty then
    cp.updateTail data
  else if data.length + cp.buffer.length < CHUNK_SIZE_BYTES then
    { cp with buffer := cp.buffer ++ data }
  else
    let for_chunk := data.take (CHUNK_SIZE_BYTES - cp.buffer.length)
    let extra := data.drop (CHUNK_SIZE_BYTES - cp.buffer.length)
    ChunkProcessor.updateTail
      ⟨[], cp.state.process_chunk (cp.buffer ++ for_chunk), (cp.size + CHUNK_LENGTH) % M64⟩
      extra

/-- Source `ChunkProcessor::finalize`: pad the buffered tail with `0x80` and zeros; if
the tail is longer than 55 bytes fold that block and restart from an all-zero
block; set position `buffer_length` to `0x80`, write the bit length into the
last 8 bytes, fold, and project the state to 16 bytes. -/
def ChunkProcessor.finalize (cp : ChunkProcessor) : Hash :=
  let buffer_length := cp.buffer.length
  let size := (cp.size + buffer_length * 8) % M64
  let padded := cp.buffer ++ INITIAL_BIT :: List.replicate (CHUNK_SIZE_BYTES - buffer_length - 1) 0
  let st := if buffer_length > ZERO_PADDING_MAX_SIZE_BYTES
            then cp.state.process_chunk padded else cp.state
  let buf2 := if buffer_length > ZERO_PADDING_MAX_SIZE_BYTES
              then List.replicate CHUNK_SIZE_BYTES 0 else padded
  let chunk := write_length (buf2.set buffer_length INITIAL_BIT) size
  ⟨(st.process_chunk chunk).to_raw⟩

/-- The one or two blocks folded by `ChunkProcessor::finalize`, in order
(mirrors `finalize`; the link is proved below). -/
def ChunkProcessor.finalizeChunks (cp : ChunkProcessor) : List (List Nat) :=
  let buffer_length := cp.buffer.length
  let size := (cp.size + buffer_length * 8) % M64
  let padded := cp.buffer ++ INITIAL_BIT :: List.replicate (CHUNK_SIZE_BYTES - buffer_length - 1) 0
  if buffer_length > ZERO_PADDING_MAX_SIZE_BYTES then
    [padded,
     write_length ((List.replicate CHUNK_SIZE_BYTES 0).set buffer_length INITIAL_BIT) size]
  else
    [write_length (padded.set buffer_length INITIAL_BIT) size]

/-- The arguments handed to `Chunk::try_from` inside one `update` call, in order
(mirrors `update`; the link is proved below). -/
def ChunkProcessor.updateChunkArgs (cp : ChunkProcessor) (data : List Nat) :
    List (List Nat) :=
  if cp.buffer.isEmpty then
    chunksExactFull data
  else if data.length + cp.buffer.length < CHUNK_SIZE_BYTES then
    []
  else
    (cp.buffer ++ data.take (CHUNK_SIZE_BYTES - cp.buffer.length)) ::
      chunksExactFull (data.drop (CHUNK_SIZE_BYTES - cp.buffer.length))

/-- Hashing a byte string in one shot: fresh processor, one `update`, `finalize`. -/
def md5 (input : List Nat) : Hash :=
  (ChunkProcessor.default.update input).finalize

/-- The digest of `input` in its canonical textual form. -/
def md5hex (input : List Nat) : String :=
  (md5 input).toHex

/-! ## Helper lemmas about the codecs -/

/-- The mask-and-shift byte extraction is division and remainder. -/
theorem extract_u8_eq (i v : Nat) : extract_u8 i v = v / 2 ^ (i * 8) % 256 := by
  rw [extract_u8, show (256 : Nat) = 2 ^ 8 by norm_num, ← Nat.shiftRight_eq_div_pow]
  apply Nat.eq_of_testBit_eq
  intro j
  simp only [Nat.testBit_shiftRight, Nat.testBit_and, Nat.testBit_shiftLeft,
    Nat.testBit_mod_two_pow, show (0xff : Nat) = 2 ^ 8 - 1 by norm_num,
    Nat.testBit_two_pow_sub_one, Nat.add_sub_cancel_left]
  simp [Nat.le_add_right, Bool.and_comm]

/-- Bitwise or with a disjoint shifted value is addition. -/
theorem lor_shift_eq_add (k a b : Nat) (h : a < 2 ^ k) :
    a ||| (b <<< k) = b * 2 ^ k + a := by
  rw [Nat.shiftLeft_eq, Nat.lor_comm, mul_comm b (2 ^ k), ← Nat.mul_add_lt_is_or h b]

/-- Source `u8_to_u32` on four bytes is the little-endian value. -/
theorem u8_to_u32_arith (b0 b1 b2 b3 : Nat)
    (h0 : b0 < 256) (h1 : b1 < 256) (h2 : b2 < 256) (h3 : b3 < 256) :
    u8_to_u32 [b0, b1, b2, b3] = b0 + b1 * 2 ^ 8 + b2 * 2 ^ 16 + b3 * 2 ^ 24 := by
  show ((((0 ||| (b0 <<< 0)) ||| (b1 <<< 8)) ||| (b2 <<< 16)) ||| (b3 <<< 24)) = _
  rw [Nat.shiftLeft_zero, Nat.zero_or]
  rw [lor_shift_eq_add 8 b0 b1 (by omega)]
  rw [lor_shift_eq_add 16 _ b2 (by norm_num; omega)]
  rw [lor_shift_eq_add 24 _ b3 (by norm_num; omega)]
  ring

/-- Source `u32_to_u8` unfolded to its four bytes. -/
theorem u32_to_u8_arith (v : Nat) :
    u32_to_u8 v = [v % 256, v / 2 ^ 8 % 256, v / 2 ^ 16 % 256, v / 2 ^ 24 % 256] := by
  show [extract_u8 0 v, extract_u8 1 v, extract_u8 2 v, extract_u8 3 v] = _
  simp [extract_u8_eq]

/-! ## C8: Chunk::try_from -/

/-- C8: `Chunk::try_from(b)` returns `InvalidSize` carrying `b`'s length exactly
when the length is not 64, and otherwise returns a chunk holding exactly the
bytes of `b`. -/
theorem chunk_try_from_exact_size (b : List Nat) :
    (b.length ≠ 64 → Chunk.tryFrom b = .error (.InvalidSize b.length)) ∧
    (b.length = 64 → Chunk.tryFrom b = .ok b) := by
  constructor <;> intro h <;> simp [Chunk.tryFrom, CHUNK_SIZE_BYTES, h]

/-- Witness for C8 at a 2-byte and a 64-byte input. -/
theorem chunk_try_from_exact_size_witness :
    Chunk.tryFrom [10, 10] = .error (.InvalidSize 2) ∧
    Chunk.tryFrom (List.replicate 64 10) = .ok (List.replicate 64 10) :=
  ⟨(chunk_try_from_exact_size [10, 10]).1 (by decide),
   (chunk_try_from_exact_size (List.replicate 64 10)).2 (by simp)⟩

/-! ## C9: word codec round trip -/

/-- C9: `u8_to_u32` is the little-endian unpack `b0 ||| b1<<<8 ||| b2<<<16 ||| b3<<<24`,
and `u32_to_u8` is its inverse: they round-trip on 32-bit words and on 4-byte arrays. -/
theorem word_codec_roundtrip :
    (∀ b0 b1 b2 b3 : Nat,
      u8_to_u32 [b0, b1, b2, b3] = b0 ||| (b1 <<< 8) ||| (b2 <<< 16) ||| (b3 <<< 24)) ∧
    (∀ w : Nat, w < 2 ^ 32 → u8_to_u32 (u32_to_u8 w) = w) ∧
    (∀ b0 b1 b2 b3 : Nat, b0 < 256 → b1 < 256 → b2 < 256 → b3 < 256 →
      u32_to_u8 (u8_to_u32 [b0, b1, b2, b3]) = [b0, b1, b2, b3]) := by
  refine ⟨?_, ?_, ?_⟩
  · intro b0 b1 b2 b3
    show ((((0 ||| (b0 <<< 0)) ||| (b1 <<< 8)) ||| (b2 <<< 16)) ||| (b3 <<< 24)) = _
    rw [Nat.shiftLeft_zero, Nat.zero_or]
  · intro w hw
    rw [u32_to_u8_arith, u8_to_u32_arith _ _ _ _ (by omega) (by omega) (by omega) (by omega)]
    norm_num
    omega
  · intro b0 b1 b2 b3 h0 h1 h2 h3
    rw [u8_to_u32_arith _ _ _ _ h0 h1 h2 h3, u32_to_u8_arith]
    norm_num
    refine ⟨by omega, by omega, by omega, by omega⟩

/-- Witness for C9 at the test-suite values. -/
theorem word_codec_roundtrip_witness :
    u8_to_u32 (u32_to_u8 0x01234567) = 0x01234567 ∧
    u32_to_u8 (u8_to_u32 [0x67, 0x45, 0x23, 0x01]) = [0x67, 0x45, 0x23, 0x01] :=
  ⟨word_codec_roundtrip.2.1 0x01234567 (by norm_num),
   word_codec_roundtrip.2.2 0x67 0x45 0x23 0x01
     (by norm_num) (by norm_num) (by norm_num) (by norm_num)⟩

/-! ## C1: RFC known vectors -/

set_option maxRecDepth 20000 in
/-- C1: feeding the RFC vectors through update/finalize yields the published
32-character lowercase hex digests: the empty input and `"abc"` (bytes 97 98 99). -/
theorem known_vectors_hex :
    md5hex [] = "d41d8cd98f00b204e9800998ecf8427e" ∧
    md5hex [97, 98, 99] = "900150983cd24fb0d6963f7d28e17f72" := by
  constructor <;> decide

/-! ## C4: process_chunk is the feed-forward of the 64-step loop -/

/-- The 16 message words as plain little-endian values of the chunk's bytes. -/
def decodeWordsLE (chunk : List Nat) : List Nat :=
  (List.range 16).map (fun i =>
    chunk.getD (i * 4) 0 + chunk.getD (i * 4 + 1) 0 * 2 ^ 8 +
      chunk.getD (i * 4 + 2) 0 * 2 ^ 16 + chunk.getD (i * 4 + 3) 0 * 2 ^ 24)

/-- Running the 64 steps in order from a starting state. -/
def stepsAll (st : HashComputeState) (block : List Nat) : HashComputeState :=
  (List.range' 1 64).foldl (fun r step => r.advance_step block step) st

/-- Spec-side restatement of `process_chunk`: decode 16 little-endian words, run
the 64 steps, then add the post-loop state to the pre-loop state mod 2^32. -/
def process_chunk_spec (st : HashComputeState) (chunk : List Nat) : HashComputeState :=
  let result := stepsAll st (decodeWordsLE chunk)
  ⟨(st.a + result.a) % 2 ^ 32, (st.b + result.b) % 2 ^ 32,
   (st.c + result.c) % 2 ^ 32, (st.d + result.d) % 2 ^ 32⟩

/-- Source `take 4` of a list with at least four elements. -/
theorem take_four (l : List Nat) (h : 4 ≤ l.length) :
    l.take 4 = [l.getD 0 0, l.getD 1 0, l.getD 2 0, l.getD 3 0] := by
  rcases l with _ | ⟨a, _ | ⟨b, _ | ⟨c, _ | ⟨d, rest⟩⟩⟩⟩ <;> simp_all

/-- Source `getD` through `drop`. -/
theorem getD_drop (l : List Nat) (k j : Nat) :
    (l.drop k).getD j 0 = l.getD (k + j) 0 := by
  simp [List.getD_eq_getElem?_getD, List.getElem?_drop]

/-- C4: for every starting state and 64-byte chunk, `process_chunk` decodes the
chunk into 16 little-endian 32-bit words, applies the 64 steps in order, and
returns the component-wise sum mod 2^32 of the post-step state with the
pre-step state. -/
theorem process_chunk_feed_forward (st : HashComputeState) (chunk : List Nat)
    (hlen : chunk.length = 64) (hbytes : ∀ b ∈ chunk, b < 256) :
    st.process_chunk chunk = process_chunk_spec st chunk := by
  have hb : ∀ m, m < 64 → chunk.getD m 0 < 256 := by
    intro m hm
    have hm' : m < chunk.length := by omega
    rw [List.getD_eq_getElem chunk 0 hm']
    exact hbytes _ (List.getElem_mem hm')
  have hblock :
      (List.range 16).map (fun index => u8_to_u32 ((chunk.drop (index * 4)).take 4)) =
        decodeWordsLE chunk := by
    unfold decodeWordsLE
    apply List.map_congr_left
    intro i hi
    rw [List.mem_range] at hi
    have h4 : 4 ≤ (chunk.drop (i * 4)).length := by
      rw [List.length_drop, hlen]; omega
    rw [take_four _ h4, getD_drop, getD_drop, getD_drop, getD_drop]
    rw [u8_to_u32_arith _ _ _ _ (hb _ (by omega)) (hb _ (by omega))
      (hb _ (by omega)) (hb _ (by omega))]
    simp
  simp only [HashComputeState.process_chunk]
  rw [hblock]
  rfl

/-- Witness for C4 at the all-zero chunk. -/
theorem process_chunk_feed_forward_witness :
    HashComputeState.default.process_chunk (List.replicate 64 0) =
      process_chunk_spec HashComputeState.default (List.replicate 64 0) :=
  process_chunk_feed_forward _ _ (by simp) (by simp)

/-! ## C3: padding path selection and final block layout -/

/-- Source `u64_to_u8` written out. -/
theorem u64_to_u8_explicit (s : Nat) :
    u64_to_u8 s = [extract_u8 0 s, extract_u8 1 s, extract_u8 2 s, extract_u8 3 s,
      extract_u8 4 s, extract_u8 5 s, extract_u8 6 s, extract_u8 7 s] := rfl

/-- Source `write_length` written out as eight `set`s at positions 56..63. -/
theorem write_length_sets (c : List Nat) (s : Nat) :
    write_length c s =
      ((((((((c.set 56 (extract_u8 0 (s &&& (M64 - 1)))).set 57 (extract_u8 1 (s &&& (M64 - 1)))).set
        58 (extract_u8 2 (s &&& (M64 - 1)))).set 59 (extract_u8 3 (s &&& (M64 - 1)))).set
        60 (extract_u8 4 (s &&& (M64 - 1)))).set 61 (extract_u8 5 (s &&& (M64 - 1)))).set
        62 (extract_u8 6 (s &&& (M64 - 1)))).set 63 (extract_u8 7 (s &&& (M64 - 1)))) := rfl

/-- On a 64-byte chunk, `write_length` replaces exactly the last 8 bytes with the
little-endian length. -/
theorem write_length_spec (c : List Nat) (s : Nat) (hc : c.length = 64) :
    write_length c s = c.take 56 ++ u64_to_u8 (s &&& (M64 - 1)) := by
  rw [write_length_sets, u64_to_u8_explicit]
  apply List.ext_getElem?
  intro n
  by_cases h56 : n < 56
  · rw [List.getElem?_set_ne (by omega : (63 : Nat) ≠ n),
      List.getElem?_set_ne (by omega : (62 : Nat) ≠ n),
      List.getElem?_set_ne (by omega : (61 : Nat) ≠ n),
      List.getElem?_set_ne (by omega : (60 : Nat) ≠ n),
      List.getElem?_set_ne (by omega : (59 : Nat) ≠ n),
      List.getElem?_set_ne (by omega : (58 : Nat) ≠ n),
      List.getElem?_set_ne (by omega : (57 : Nat) ≠ n),
      List.getElem?_set_ne (by omega : (56 : Nat) ≠ n),
      List.getElem?_append_left (by simp [List.length_take, hc]; omega),
      List.getElem?_take_of_lt h56]
  · by_cases h64 : n < 64
    · have h56' : 56 ≤ n := by omega
      interval_cases n <;>
        simp [List.getElem?_set, List.length_set, hc, List.getElem?_append,
          List.length_take, List.getElem_append, Nat.min_def]
    · rw [List.getElem?_eq_none (by simp [List.length_set, hc]; omega),
        List.getElem?_eq_none (by simp [List.length_take, hc]; omega)]

/-- Splitting an append around a cons. -/
theorem append_cons_append (A : List Nat) (x : Nat) (B C : List Nat) :
    A ++ x :: (B ++ C) = (A ++ x :: B) ++ C := by simp

/-- The `size & u64::MAX` mask is the identity on values already reduced mod 2^64. -/
theorem mask_mod_u64 (x : Nat) : (x % M64) &&& (M64 - 1) = x % M64 := by
  rw [show M64 - 1 = 2 ^ 64 - 1 from rfl, Nat.and_pow_two_sub_one_eq_mod,
    show M64 = 2 ^ 64 from rfl, Nat.mod_mod_of_dvd x (dvd_refl _)]

/-- One-block path of `finalize`: with at most 55 buffered bytes the single final
block is tail, marker, zeros, then the 8-byte length. -/
theorem finalizeChunks_low (cp : ChunkProcessor) (h : cp.buffer.length ≤ 55) :
    cp.finalizeChunks =
      [(cp.buffer ++ INITIAL_BIT :: List.replicate (55 - cp.buffer.length) 0) ++
        u64_to_u8 ((cp.size + cp.buffer.length * 8) % M64)] := by
  unfold ChunkProcessor.finalizeChunks
  rw [if_neg (by simp only [ZERO_PADDING_MAX_SIZE_BYTES, CHUNK_SIZE_BYTES]; omega)]
  have hset : (cp.buffer ++ INITIAL_BIT ::
      List.replicate (CHUNK_SIZE_BYTES - cp.buffer.length - 1) 0).set
        cp.buffer.length INITIAL_BIT
      = cp.buffer ++ INITIAL_BIT :: List.replicate (CHUNK_SIZE_BYTES - cp.buffer.length - 1) 0 := by
    rw [List.set_append_right _ _ (le_refl _)]
    simp
  rw [hset]
  rw [write_length_spec _ _ (by simp [CHUNK_SIZE_BYTES]; omega)]
  have hsplit : CHUNK_SIZE_BYTES - cp.buffer.length - 1 = (55 - cp.buffer.length) + 8 := by
    simp only [CHUNK_SIZE_BYTES]; omega
  rw [hsplit, List.replicate_add, append_cons_append,
    List.take_left' (by simp; omega)]
  rw [mask_mod_u64]

/-- Two-block path of `finalize`: with 56..63 buffered bytes the marker-padded
block carries no length field and the final block is 56 zeros plus the length. -/
theorem finalizeChunks_high (cp : ChunkProcessor) (h1 : 55 < cp.buffer.length)
    (h2 : cp.buffer.length ≤ 63) :
    cp.finalizeChunks =
      [cp.buffer ++ INITIAL_BIT :: List.replicate (63 - cp.buffer.length) 0,
       List.replicate 56 0 ++ u64_to_u8 ((cp.size + cp.buffer.length * 8) % M64)] := by
  unfold ChunkProcessor.finalizeChunks
  rw [if_pos (by simp only [ZERO_PADDING_MAX_SIZE_BYTES, CHUNK_SIZE_BYTES]; omega)]
  have hz : CHUNK_SIZE_BYTES - cp.buffer.length - 1 = 63 - cp.buffer.length := by
    simp only [CHUNK_SIZE_BYTES]; omega
  rw [hz]
  have hrep : List.replicate CHUNK_SIZE_BYTES (0 : Nat)
      = List.replicate 56 0 ++ List.replicate 8 0 := by
    rw [show CHUNK_SIZE_BYTES = 56 + 8 from rfl, List.replicate_add]
  rw [hrep, List.set_append_right _ _ (by simp; omega)]
  rw [write_length_spec _ _ (by simp)]
  rw [List.take_left' (by simp)]
  rw [mask_mod_u64]

/-- Source `finalize` folds exactly the blocks listed by `finalizeChunks`, in order. -/
theorem finalize_eq_foldl (cp : ChunkProcessor) :
    cp.finalize =
      ⟨(cp.finalizeChunks.foldl HashComputeState.process_chunk cp.state).to_raw⟩ := by
  simp only [ChunkProcessor.finalize, ChunkProcessor.finalizeChunks]
  by_cases h : cp.buffer.length > ZERO_PADDING_MAX_SIZE_BYTES <;>
    simp [h, List.foldl]

/-- C3: at finalize with `tail_len` buffered bytes, the 0x80 marker follows the
tail and is zero-filled; `tail_len ≤ 55` yields one block ending in the 8-byte
length field, `tail_len > 55` yields a marker-padded block with no length field
followed by a block that is zero except for its last 8 length bytes; `finalize`
folds exactly these blocks. -/
theorem finalize_padding_paths (cp : ChunkProcessor) (h : cp.buffer.length ≤ 63) :
    (cp.finalize =
      ⟨(cp.finalizeChunks.foldl HashComputeState.process_chunk cp.state).to_raw⟩) ∧
    (cp.buffer.length ≤ 55 →
      cp.finalizeChunks =
        [(cp.buffer ++ 0x80 :: List.replicate (55 - cp.buffer.length) 0) ++
          u64_to_u8 ((cp.size + cp.buffer.length * 8) % 2 ^ 64)]) ∧
    (55 < cp.buffer.length →
      cp.finalizeChunks =
        [cp.buffer ++ 0x80 :: List.replicate (63 - cp.buffer.length) 0,
         List.replicate 56 0 ++ u64_to_u8 ((cp.size + cp.buffer.length * 8) % 2 ^ 64)]) :=
  ⟨finalize_eq_foldl cp,
   fun hl => finalizeChunks_low cp hl,
   fun hh => finalizeChunks_high cp hh h⟩

/-- Witness for C3: a 3-byte tail takes the one-block path with the layout above. -/
theorem finalize_padding_paths_witness :
    (⟨[1, 2, 3], HashComputeState.default, 0⟩ : ChunkProcessor).finalizeChunks =
      [(([1, 2, 3] : List Nat) ++ 0x80 ::
          List.replicate (55 - ([1, 2, 3] : List Nat).length) 0) ++
        u64_to_u8 ((0 + ([1, 2, 3] : List Nat).length * 8) % 2 ^ 64)] :=
  (finalize_padding_paths ⟨[1, 2, 3], HashComputeState.default, 0⟩ (by decide)).2.1
    (by decide)

/-! ## The byte-at-a-time absorption model

`update` is proved equal to folding the input one byte at a time; this is the
tool behind the chunking-invariance and invariant claims. -/

/-- Absorb one byte: append to the buffer; once 64 bytes are reached fold the
chunk and clear the buffer, bumping the bit counter by 512. -/
def absorbByte (cp : ChunkProcessor) (b : Nat) : ChunkProcessor :=
  if (cp.buffer ++ [b]).length = CHUNK_SIZE_BYTES then
    ⟨[], cp.state.process_chunk (cp.buffer ++ [b]), (cp.size + CHUNK_LENGTH) % M64⟩
  else
    ⟨cp.buffer ++ [b], cp.state, cp.size⟩

/-- Absorb a byte string one byte at a time. -/
def absorb (cp : ChunkProcessor) (data : List Nat) : ChunkProcessor :=
  data.foldl absorbByte cp

theorem chunksExactFull_nil (data : List Nat) (h : data.length < 64) :
    chunksExactFull data = [] := by
  unfold chunksExactFull
  rw [show CHUNK_SIZE_BYTES = 64 from rfl, Nat.div_eq_of_lt h]
  rfl

theorem chunksExactRemainder_self (data : List Nat) (h : data.length < 64) :
    chunksExactRemainder data = data := by
  unfold chunksExactRemainder
  rw [show CHUNK_SIZE_BYTES = 64 from rfl, Nat.div_eq_of_lt h]
  rfl

theorem chunksExactFull_cons (data : List Nat) (h : 64 ≤ data.length) :
    chunksExactFull data = data.take 64 :: chunksExactFull (data.drop 64) := by
  unfold chunksExactFull
  rw [show CHUNK_SIZE_BYTES = 64 from rfl]
  have hq : data.length / 64 = (data.drop 64).length / 64 + 1 := by
    rw [List.length_drop]; omega
  rw [hq, List.range_succ_eq_map]
  simp only [List.map_cons, Nat.mul_zero, List.drop_zero, List.map_map]
  congr 1
  apply List.map_congr_left
  intro i _
  simp only [Function.comp_apply, List.drop_drop]
  congr 2
  omega

theorem chunksExactRemainder_cons (data : List Nat) (h : 64 ≤ data.length) :
    chunksExactRemainder data = chunksExactRemainder (data.drop 64) := by
  unfold chunksExactRemainder
  rw [show CHUNK_SIZE_BYTES = 64 from rfl, List.drop_drop, List.length_drop]
  congr 1
  omega

/-- Absorbing fewer bytes than fill the buffer only extends the buffer. -/
theorem absorb_small (data : List Nat) :
    ∀ (buf : List Nat) (st : HashComputeState) (sz : Nat),
      buf.length + data.length < 64 →
      absorb ⟨buf, st, sz⟩ data = ⟨buf ++ data, st, sz⟩ := by
  induction data with
  | nil => intro buf st sz _; simp [absorb]
  | cons b rest ih =>
    intro buf st sz h
    simp only [List.length_cons] at h
    show absorb (absorbByte ⟨buf, st, sz⟩ b) rest = _
    have hne : ¬((buf ++ [b]).length = CHUNK_SIZE_BYTES) := by
      simp only [List.length_append, List.length_cons, List.length_nil, CHUNK_SIZE_BYTES]
      omega
    have hih : (buf ++ [b]).length + rest.length < 64 := by
      simp only [List.length_append, List.length_cons, List.length_nil]
      omega
    rw [absorbByte, if_neg hne, ih (buf ++ [b]) st sz hih]
    simp

/-- Absorbing exactly the bytes that complete the buffer folds one chunk. -/
theorem absorb_fill (c : List Nat) :
    ∀ (buf : List Nat) (st : HashComputeState) (sz : Nat),
      buf.length < 64 → buf.length + c.length = 64 →
      absorb ⟨buf, st, sz⟩ c =
        ⟨[], st.process_chunk (buf ++ c), (sz + CHUNK_LENGTH) % M64⟩ := by
  induction c with
  | nil => intro buf st sz h1 h2; exfalso; simp only [List.length_nil] at h2; omega
  | cons b rest ih =>
    intro buf st sz h1 h2
    simp only [List.length_cons] at h2
    show absorb (absorbByte ⟨buf, st, sz⟩ b) rest = _
    by_cases hful : buf.length + 1 = 64
    · have hrest : rest = [] := by
        have : rest.length = 0 := by omega
        exact List.length_eq_zero.mp this
      subst hrest
      have heq : (buf ++ [b]).length = CHUNK_SIZE_BYTES := by
        simp only [List.length_append, List.length_cons, List.length_nil, CHUNK_SIZE_BYTES]
        omega
      rw [absorbByte, if_pos heq]
      simp [absorb]
    · have hne : ¬((buf ++ [b]).length = CHUNK_SIZE_BYTES) := by
        simp only [List.length_append, List.length_cons, List.length_nil, CHUNK_SIZE_BYTES]
        omega
      have ha : (buf ++ [b]).length < 64 := by
        simp only [List.length_append, List.length_cons, List.length_nil]
        omega
      have hb : (buf ++ [b]).length + rest.length = 64 := by
        simp only [List.length_append, List.length_cons, List.length_nil]
        omega
      rw [absorbByte, if_neg hne, ih (buf ++ [b]) st sz ha hb]
      simp

/-- Source `updateTail` from an empty buffer equals byte-at-a-time absorption. -/
theorem updateTail_eq_absorb (n : Nat) :
    ∀ (data : List Nat), data.length ≤ n → ∀ (st : HashComputeState) (sz : Nat),
      ChunkProcessor.updateTail ⟨[], st, sz⟩ data = absorb ⟨[], st, sz⟩ data := by
  induction n with
  | zero =>
    intro data hd st sz
    have : data = [] := List.length_eq_zero.mp (by omega)
    subst this
    simp [ChunkProcessor.updateTail, chunksExactFull_nil, chunksExactRemainder_self, absorb]
  | succ n ih =>
    intro data hd st sz
    by_cases h64 : 64 ≤ data.length
    · have hsplit := List.take_append_drop 64 data
      have htl : (data.take 64).length = 64 := by
        simp only [List.length_take]
        omega
      calc ChunkProcessor.updateTail ⟨[], st, sz⟩ data
          = ChunkProcessor.updateTail
              ⟨[], st.process_chunk (data.take 64), (sz + CHUNK_LENGTH) % M64⟩
              (data.drop 64) := by
            unfold ChunkProcessor.updateTail
            rw [chunksExactFull_cons data h64, chunksExactRemainder_cons data h64]
            simp [List.foldl_cons]
        _ = absorb ⟨[], st.process_chunk (data.take 64), (sz + CHUNK_LENGTH) % M64⟩
              (data.drop 64) := by
            apply ih
            rw [List.length_drop]; omega
        _ = absorb (absorb ⟨[], st, sz⟩ (data.take 64)) (data.drop 64) := by
            rw [absorb_fill (data.take 64) [] st sz (by simp) (by simp [htl])]
            simp
        _ = absorb ⟨[], st, sz⟩ data := by
            rw [absorb, absorb, absorb, ← List.foldl_append, hsplit]
    · push_neg at h64
      rw [absorb_small data [] st sz (by simpa using h64)]
      unfold ChunkProcessor.updateTail
      rw [chunksExactFull_nil data h64, chunksExactRemainder_self data h64]
      rfl

/-- Source `update` equals byte-at-a-time absorption whenever the buffer invariant
(fewer than 64 buffered bytes) holds. -/
theorem update_eq_absorb (cp : ChunkProcessor) (data : List Nat)
    (h : cp.buffer.length < 64) :
    cp.update data = absorb cp data := by
  obtain ⟨buf, st, sz⟩ := cp
  cases buf with
  | nil =>
    rw [ChunkProcessor.update]
    simp only [List.isEmpty_nil, if_pos]
    exact updateTail_eq_absorb data.length data le_rfl st sz
  | cons x xs =>
    rw [ChunkProcessor.update]
    simp only [List.isEmpty_cons, Bool.false_eq_true, if_false]
    by_cases hsz : data.length + (x :: xs).length < CHUNK_SIZE_BYTES
    · rw [if_pos hsz]
      simp only [CHUNK_SIZE_BYTES, List.length_cons] at hsz
      have hs : (x :: xs).length + data.length < 64 := by
        simp only [List.length_cons]
        omega
      rw [absorb_small data (x :: xs) st sz hs]
    · rw [if_neg hsz]
      simp only [CHUNK_SIZE_BYTES, List.length_cons] at hsz h ⊢
      push_neg at hsz
      have hlt : (x :: xs).length < 64 := by
        simp only [List.length_cons]
        omega
      have hk : (x :: xs).length + (data.take (64 - (x :: xs).length)).length = 64 := by
        simp only [List.length_cons, List.length_take]
        omega
      conv_rhs => rw [← List.take_append_drop (64 - (x :: xs).length) data]
      rw [absorb, List.foldl_append, ← absorb, ← absorb]
      rw [absorb_fill _ _ st sz hlt hk]
      simp only [List.length_cons]
      exact updateTail_eq_absorb (data.drop (64 - (xs.length + 1))).length _ le_rfl _ _

/-- One absorbed byte keeps the buffer under 64 bytes. -/
theorem absorbByte_buffer_lt (cp : ChunkProcessor) (b : Nat)
    (h : cp.buffer.length < 64) : (absorbByte cp b).buffer.length < 64 := by
  rw [absorbByte]
  by_cases hl : (cp.buffer ++ [b]).length = CHUNK_SIZE_BYTES
  · rw [if_pos hl]; simp
  · rw [if_neg hl]
    simp only [List.length_append, List.length_cons, List.length_nil, CHUNK_SIZE_BYTES] at hl ⊢
    omega

/-- Absorption keeps the buffer under 64 bytes. -/
theorem absorb_buffer_lt (data : List Nat) :
    ∀ cp : ChunkProcessor, cp.buffer.length < 64 →
      (absorb cp data).buffer.length < 64 := by
  induction data with
  | nil => intro cp h; exact h
  | cons b rest ih =>
    intro cp h
    exact ih (absorbByte cp b) (absorbByte_buffer_lt cp b h)

/-- Every state reached by a sequence of `update` calls keeps the buffer under
64 bytes. -/
theorem foldl_update_buffer_lt (pieces : List (List Nat)) :
    (pieces.foldl ChunkProcessor.update ChunkProcessor.default).buffer.length < 64 := by
  suffices hgen : ∀ (ps : List (List Nat)) (cp : ChunkProcessor), cp.buffer.length < 64 →
      (ps.foldl ChunkProcessor.update cp).buffer.length < 64 by
    exact hgen pieces ChunkProcessor.default (by simp [ChunkProcessor.default])
  intro ps
  induction ps with
  | nil => intro cp h; exact h
  | cons p rest ih =>
    intro cp h
    rw [List.foldl_cons, update_eq_absorb cp p h]
    exact ih (absorb cp p) (absorb_buffer_lt p cp h)

/-- Folding a sequence of `update` calls from a reachable state equals absorbing
the concatenation one byte at a time. -/
theorem foldl_update_eq_absorb (pieces : List (List Nat)) :
    ∀ cp : ChunkProcessor, cp.buffer.length < 64 →
      pieces.foldl ChunkProcessor.update cp = absorb cp pieces.flatten := by
  induction pieces with
  | nil => intro cp _; rfl
  | cons p rest ih =>
    intro cp h
    rw [List.foldl_cons, update_eq_absorb cp p h, List.flatten_cons]
    rw [ih (absorb cp p) (absorb_buffer_lt p cp h)]
    rw [absorb, absorb, absorb, ← List.foldl_append]

/-! ## C2: chunking invariance -/

/-- C2: for every byte string `S` and every partition of `S` into pieces fed via
successive `update` calls on a fresh processor, the digest equals the digest of
feeding all of `S` in a single `update` call. -/
theorem chunking_invariance (pieces : List (List Nat)) (S : List Nat)
    (hS : pieces.flatten = S) :
    (pieces.foldl ChunkProcessor.update ChunkProcessor.default).finalize =
      (ChunkProcessor.default.update S).finalize := by
  subst hS
  rw [foldl_update_eq_absorb pieces ChunkProcessor.default (by simp [ChunkProcessor.default]),
    update_eq_absorb ChunkProcessor.default _ (by simp [ChunkProcessor.default])]

/-- Witness for C2: "abc" split as "a" + "bc". -/
theorem chunking_invariance_witness :
    ([[97], [98, 99]] : List (List Nat)).flatten = [97, 98, 99] ∧
    (([[97], [98, 99]] : List (List Nat)).foldl ChunkProcessor.update
        ChunkProcessor.default).finalize =
      (ChunkProcessor.default.update [97, 98, 99]).finalize :=
  ⟨by decide, chunking_invariance [[97], [98, 99]] [97, 98, 99] (by decide)⟩

/-! ## C7: buffer-at-rest invariant -/

/-- C7: after every sequence of `update` calls on a fresh processor the internal
buffer holds at most 63 unconsumed bytes. -/
theorem buffer_at_rest (pieces : List (List Nat)) :
    (pieces.foldl ChunkProcessor.update ChunkProcessor.default).buffer.length ≤ 63 := by
  have := foldl_update_buffer_lt pieces
  omega

/-! ## C10: empty update is a no-op -/

/-- Dropping empty pieces does not change the concatenation. -/
theorem flatten_filter_nonempty (pieces : List (List Nat)) :
    (pieces.filter (fun p => !p.isEmpty)).flatten = pieces.flatten := by
  induction pieces with
  | nil => rfl
  | cons p rest ih =>
    cases p with
    | nil => simpa using ih
    | cons x xs => simpa using ih

/-- C10: updating with an empty byte slice leaves the processor (buffer, state
and bit counter) unchanged, and inserting any number of empty update calls into
a sequence leaves the resulting processor — hence the digest — unchanged. -/
theorem empty_update_frame :
    (∀ cp : ChunkProcessor, cp.buffer.length ≤ 63 → cp.update [] = cp) ∧
    (∀ pieces : List (List Nat),
      (pieces.filter (fun p => !p.isEmpty)).foldl ChunkProcessor.update
          ChunkProcessor.default =
        pieces.foldl ChunkProcessor.update ChunkProcessor.default) := by
  constructor
  · intro cp h
    rw [update_eq_absorb cp [] (by omega)]
    rfl
  · intro pieces
    rw [foldl_update_eq_absorb _ ChunkProcessor.default (by simp [ChunkProcessor.default]),
      foldl_update_eq_absorb _ ChunkProcessor.default (by simp [ChunkProcessor.default]),
      flatten_filter_nonempty]

/-- Witness for C10 at the fresh processor. -/
theorem empty_update_frame_witness :
    ChunkProcessor.default.update [] = ChunkProcessor.default :=
  empty_update_frame.1 ChunkProcessor.default (by decide)

/-! ## C5: the core engine never fails -/

theorem u64_to_u8_length (s : Nat) : (u64_to_u8 s).length = 8 := by
  simp [u64_to_u8]

/-- Every complete window produced by `chunks_exact(64)` has length 64. -/
theorem chunksExactFull_length (data : List Nat) :
    ∀ c ∈ chunksExactFull data, c.length = 64 := by
  intro c hc
  rw [chunksExactFull] at hc
  simp only [List.mem_map, List.mem_range, CHUNK_SIZE_BYTES] at hc
  obtain ⟨i, hi, rfl⟩ := hc
  simp only [List.length_take, List.length_drop]
  omega

/-- The state after `update` is the fold of `process_chunk` over exactly the
arguments listed by `updateChunkArgs`. -/
theorem update_state_eq_foldl_args (cp : ChunkProcessor) (data : List Nat) :
    (cp.update data).state =
      (cp.updateChunkArgs data).foldl HashComputeState.process_chunk cp.state := by
  rw [ChunkProcessor.update, ChunkProcessor.updateChunkArgs]
  by_cases h1 : cp.buffer.isEmpty
  · rw [if_pos h1, if_pos h1]
    rfl
  · rw [if_neg h1, if_neg h1]
    by_cases h2 : data.length + cp.buffer.length < CHUNK_SIZE_BYTES
    · rw [if_pos h2, if_pos h2]
      rfl
    · rw [if_neg h2, if_neg h2, List.foldl_cons]
      rfl

/-- Every `Chunk::try_from` argument inside `update` has length exactly 64. -/
theorem updateChunkArgs_length (cp : ChunkProcessor) (data : List Nat)
    (h : cp.buffer.length < 64) :
    ∀ c ∈ cp.updateChunkArgs data, c.length = 64 := by
  intro c hc
  rw [ChunkProcessor.updateChunkArgs] at hc
  by_cases h1 : cp.buffer.isEmpty
  · rw [if_pos h1] at hc
    exact chunksExactFull_length data c hc
  · rw [if_neg h1] at hc
    by_cases h2 : data.length + cp.buffer.length < CHUNK_SIZE_BYTES
    · rw [if_pos h2] at hc
      simp at hc
    · rw [if_neg h2] at hc
      simp only [CHUNK_SIZE_BYTES] at h2
      simp only [List.mem_cons] at hc
      rcases hc with rfl | hc
      · simp only [List.length_append, List.length_take, CHUNK_SIZE_BYTES]
        omega
      · exact chunksExactFull_length _ c hc

/-- Every `Chunk::try_from` argument inside `finalize` has length exactly 64. -/
theorem finalizeChunks_length (cp : ChunkProcessor) (h : cp.buffer.length ≤ 63) :
    ∀ c ∈ cp.finalizeChunks, c.length = 64 := by
  intro c hc
  by_cases hb : cp.buffer.length ≤ 55
  · rw [finalizeChunks_low cp hb] at hc
    simp only [List.mem_singleton] at hc
    subst hc
    simp only [List.length_append, List.length_cons, List.length_replicate,
      u64_to_u8_length]
    omega
  · rw [finalizeChunks_high cp (by omega) h] at hc
    simp only [List.mem_cons, List.mem_singleton, List.not_mem_nil, or_false] at hc
    rcases hc with rfl | rfl
    · simp only [List.length_append, List.length_cons, List.length_replicate]
      omega
    · simp only [List.length_append, List.length_replicate, u64_to_u8_length]

/-- C5: from any state reachable by `update` calls on a fresh processor, the
state evolution of `update` and `finalize` folds exactly the listed 64-byte
chunk arguments, and every such argument passes `Chunk::try_from` — the error
branch behind the source's `.unwrap()` calls is unreachable. -/
theorem core_never_fails (pieces : List (List Nat)) (data : List Nat)
    (cp : ChunkProcessor)
    (hcp : cp = pieces.foldl ChunkProcessor.update ChunkProcessor.default) :
    ((cp.update data).state =
      (cp.updateChunkArgs data).foldl HashComputeState.process_chunk cp.state) ∧
    (∀ c ∈ cp.updateChunkArgs data, Chunk.tryFrom c = .ok c) ∧
    (cp.finalize =
      ⟨(cp.finalizeChunks.foldl HashComputeState.process_chunk cp.state).to_raw⟩) ∧
    (∀ c ∈ cp.finalizeChunks, Chunk.tryFrom c = .ok c) := by
  have hb : cp.buffer.length < 64 := hcp ▸ foldl_update_buffer_lt pieces
  refine ⟨update_state_eq_foldl_args cp data, ?_, finalize_eq_foldl cp, ?_⟩
  · intro c hc
    have hlen := updateChunkArgs_length cp data hb c hc
    simp [Chunk.tryFrom, hlen, CHUNK_SIZE_BYTES]
  · intro c hc
    have hlen := finalizeChunks_length cp (by omega) c hc
    simp [Chunk.tryFrom, hlen, CHUNK_SIZE_BYTES]

/-- Witness for C5: the single chunk of a fresh 64-byte update passes
`Chunk::try_from`. -/
theorem core_never_fails_witness :
    Chunk.tryFrom (List.replicate 64 (0 : Nat)) = .ok (List.replicate 64 0) := by
  have h := core_never_fails [] (List.replicate 64 0) ChunkProcessor.default rfl
  exact h.2.1 (List.replicate 64 0) (by decide)

/-! ## C6: the bit-length counter wraps modulo 2^64 -/

theorem M64_eq : M64 = 18446744073709551616 := by norm_num [M64]

/-- Through absorption, the counter plus eight bits per buffered byte tracks
eight times the number of bytes fed, modulo 2^64. -/
theorem absorb_size_inv (data : List Nat) :
    ∀ (cp : ChunkProcessor) (n : Nat),
      (cp.size + 8 * cp.buffer.length) % M64 = (8 * n) % M64 →
      ((absorb cp data).size + 8 * (absorb cp data).buffer.length) % M64 =
        (8 * (n + data.length)) % M64 := by
  induction data with
  | nil => intro cp n h; simpa using h
  | cons b rest ih =>
    intro cp n h
    have hstep : ((absorbByte cp b).size + 8 * (absorbByte cp b).buffer.length) % M64 =
        (8 * (n + 1)) % M64 := by
      rw [absorbByte]
      by_cases hl : (cp.buffer ++ [b]).length = CHUNK_SIZE_BYTES
      · rw [if_pos hl]
        simp only [List.length_append, List.length_cons, List.length_nil,
          CHUNK_SIZE_BYTES] at hl
        simp only [List.length_nil, CHUNK_LENGTH, CHUNK_SIZE_BYTES]
        rw [M64_eq] at h ⊢
        omega
      · rw [if_neg hl]
        simp only [List.length_append, List.length_cons, List.length_nil]
        rw [M64_eq] at h ⊢
        omega
    have hrec := ih (absorbByte cp b) (n + 1) hstep
    have harg : 8 * (n + (b :: rest).length) = 8 * ((n + 1) + rest.length) := by
      simp only [List.length_cons]
      ring
    rw [show absorb cp (b :: rest) = absorb (absorbByte cp b) rest from rfl, harg]
    exact hrec

/-- Source `u64_to_u8` is the little-endian byte decomposition. -/
theorem u64_to_u8_as_le (s : Nat) :
    u64_to_u8 s = (List.range 8).map (fun i => s / 2 ^ (8 * i) % 256) := by
  unfold u64_to_u8
  apply List.map_congr_left
  intro i _
  rw [extract_u8_eq, Nat.mul_comm]

/-- C6: for any sequence of `update` calls feeding `N` bytes in total, the last
8 bytes of the final padded block are the little-endian encoding of
`(8 * N) mod 2^64`. -/
theorem length_field_mod_2_64 (pieces : List (List Nat)) :
    (((pieces.foldl ChunkProcessor.update ChunkProcessor.default).finalizeChunks.getLastD
        []).drop 56) =
      (List.range 8).map
        (fun i => 8 * pieces.flatten.length % 2 ^ 64 / 2 ^ (8 * i) % 256) := by
  have hcp : pieces.foldl ChunkProcessor.update ChunkProcessor.default =
      absorb ChunkProcessor.default pieces.flatten :=
    foldl_update_eq_absorb pieces ChunkProcessor.default (by simp [ChunkProcessor.default])
  have hb : (pieces.foldl ChunkProcessor.update ChunkProcessor.default).buffer.length < 64 :=
    foldl_update_buffer_lt pieces
  set cp := pieces.foldl ChunkProcessor.update ChunkProcessor.default with hcpdef
  have hsz : (cp.size + 8 * cp.buffer.length) % M64 = (8 * pieces.flatten.length) % M64 := by
    rw [hcp]
    have h0 : (ChunkProcessor.default.size + 8 * ChunkProcessor.default.buffer.length) % M64 =
        (8 * 0) % M64 := by simp [ChunkProcessor.default]
    simpa using absorb_size_inv pieces.flatten ChunkProcessor.default 0 h0
  have hfin : (cp.size + cp.buffer.length * 8) % M64 = 8 * pieces.flatten.length % 2 ^ 64 := by
    rw [Nat.mul_comm cp.buffer.length 8, hsz]
    rfl
  by_cases hlow : cp.buffer.length ≤ 55
  · rw [finalizeChunks_low cp hlow]
    show ((cp.buffer ++ 0x80 :: List.replicate (55 - cp.buffer.length) 0) ++
        u64_to_u8 ((cp.size + cp.buffer.length * 8) % M64)).drop 56 = _
    rw [List.drop_left' (by simp only [List.length_append, List.length_cons,
      List.length_replicate]; omega)]
    rw [hfin, u64_to_u8_as_le]
  · rw [finalizeChunks_high cp (by omega) (by omega)]
    show (List.replicate 56 0 ++
        u64_to_u8 ((cp.size + cp.buffer.length * 8) % M64)).drop 56 = _
    rw [List.drop_left' (by simp)]
    rw [hfin, u64_to_u8_as_le]

end YaMd5
